import Mathlib

/-!
Verification of the cc-slash-agents file discovery and generation pipeline.

The development shallowly embeds the discovery, parsing, name-resolution and
synchronization logic of the repository.  The filesystem is modelled as an
association list from paths to entries; an entry is `some content` for a
readable file and `none` for a file that exists but cannot be read.  String
operations that the TypeScript source performs (substring search,
first-occurrence replacement, prefix tests) are modelled on the character
lists underlying Lean strings so that every definition is executable.
-/

/-- Character-level whitespace test used to model the regex class `\s`
(restricted to the blanks that occur on single lines). -/
def isWsChar (c : Char) : Bool := c = ' ' || c = '\t'

/-- Character-level model of the regex class `[\w-]`. -/
def isWordChar (c : Char) : Bool := c.isAlphanum || c = '_' || c = '-'

/-- Is `pat` a contiguous sublist of the second argument? -/
def listInfix (pat : List Char) : List Char → Bool
  | [] => pat.isPrefixOf ([] : List Char)
  | c :: cs => pat.isPrefixOf (c :: cs) || listInfix pat cs

/-- Substring containment on character lists, modelling JavaScript
`String.prototype.includes`. -/
def hasSubstr (s pat : String) : Bool := listInfix pat.data s.data

/-- Prefix test modelling JavaScript `String.prototype.startsWith`. -/
def jsStartsWith (s pat : String) : Bool := pat.data.isPrefixOf s.data

/-- Replace the first occurrence of `pat` by `rep`, on character lists.
Models JavaScript `String.prototype.replace` with a string pattern, which
replaces only the leftmost occurrence (and, like JavaScript, inserts `rep`
at the front when `pat` is empty). -/
def listReplaceFirst (pat rep : List Char) : List Char → List Char
  | [] => if pat.isPrefixOf ([] : List Char) then rep else []
  | c :: cs =>
    if pat.isPrefixOf (c :: cs) then rep ++ (c :: cs).drop pat.length
    else c :: listReplaceFirst pat rep cs

/-- String wrapper for `listReplaceFirst`. -/
def replaceFirstStr (s pat rep : String) : String :=
  ⟨listReplaceFirst pat.data rep.data s.data⟩

/-- Split at the first occurrence of `pat`: returns the part before and the
part after when `pat` occurs. -/
def splitOnFirst (pat : List Char) : List Char → Option (List Char × List Char)
  | [] => if pat.isPrefixOf ([] : List Char) then some ([], []) else none
  | c :: cs =>
    if pat.isPrefixOf (c :: cs) then some ([], (c :: cs).drop pat.length)
    else (splitOnFirst pat cs).map (fun p => (c :: p.1, p.2))

/-- Split a character list on newline characters. -/
def splitNlAux : List Char → List (List Char)
  | [] => [[]]
  | c :: rest =>
    if c = '\n' then [] :: splitNlAux rest
    else
      match splitNlAux rest with
      | [] => [[c]]
      | l :: ls => (c :: l) :: ls

/-- Split a string into its lines, modelling JavaScript `split('\n')`. -/
def splitLines (s : String) : List String := (splitNlAux s.data).map (fun l => ⟨l⟩)

/-- Association-list lookup (models JavaScript `Map.get` / object field
access). -/
def assocFind {α β : Type} [DecidableEq α] (k : α) : List (α × β) → Option β
  | [] => none
  | (k', v) :: rest => if k = k' then some v else assocFind k rest

/-- Filesystem model: a list of `(path, entry)` pairs.  `some content` is a
readable file, `none` a file that exists but cannot be read. -/
def FS : Type := List (String × Option String)

/-- Does a file exist at `p` (models `existsSync`)? -/
def fsExists (fs : FS) (p : String) : Bool := (assocFind p fs).isSome

/-- Read the file at `p`; `none` when the file is missing or unreadable
(models `readFileSync` with the caller catching the exception). -/
def fsRead (fs : FS) (p : String) : Option String := (assocFind p fs).bind id

/-- Write `content` at path `p` (models `writeFileSync`). -/
def fsWrite (fs : FS) (p : String) (content : String) : FS :=
  (p, some content) :: (fs.filter (fun e => !(e.1 = p : Bool)))

/-- Remove the entry at path `p`. -/
def fsRemove (fs : FS) (p : String) : FS := fs.filter (fun e => !(e.1 = p : Bool))

/-- Delete the file at `p`, failing when it does not exist (models
`unlinkSync`). -/
def unlink (fs : FS) (p : String) : Except String FS :=
  if fsExists fs p then Except.ok (fsRemove fs p)
  else Except.error ("ENOENT: no such file: " ++ p)

/-- The human-readable generated-file signature phrase. -/
def genPhrase : String := "Generated by cc-slash-agents"

/-- The machine comment marker embedded in generated files. -/
def genMarker : String := "<!-- ccsa:generated -->"

/-- Embedding of `FileDiscovery.isGeneratedFile`: false when the file does
not exist, false when the read fails, otherwise true iff the raw text
contains either signature token. -/
def isGeneratedFile (fs : FS) (filePath : String) : Bool :=
  match assocFind filePath fs with
  | none => false
  | some none => false
  | some (some content) => hasSubstr content genPhrase || hasSubstr content genMarker

/-- Scope of a discovered file: project-level or user-level directory. -/
inductive Scope : Type
  | project
  | user
deriving DecidableEq, Repr

/-- Frontmatter of an agent file (`AgentFrontmatter` in `types.ts`):
mandatory `name` and `description`, optional `tools` and `model`. -/
structure AgentFrontmatter : Type where
  name : String
  description : String
  tools : Option String
  model : Option String
deriving DecidableEq, Repr

/-- A discovered agent file (`AgentFile` in `types.ts`). -/
structure AgentFile : Type where
  path : String
  relativePath : String
  frontmatter : AgentFrontmatter
  content : String
  scope : Scope
deriving DecidableEq, Repr

/-- A discovered command file (`CommandFile` in `types.ts`); its metadata is
not needed by the sync classification, only the paths are. -/
structure CommandFile : Type where
  path : String
  relativePath : String
  content : String
  scope : Scope
deriving DecidableEq, Repr

deriving instance DecidableEq for Except

/-- The single-quote character (kept out of literals for readability). -/
def squote : Char := Char.ofNat 39

/-- The escape codes recognized inside a double-quoted scalar.  Modelled
from the spec: the structured-data decoder is the external
`gray-matter`/js-yaml library, not part of this repository. -/
def unescapeChar (e : Char) : Option Char :=
  if e = '"' then some '"'
  else if e = '\\' then some '\\'
  else if e = 'n' then some '\n'
  else if e = 't' then some '\t'
  else if e = 'b' then some (Char.ofNat 8)
  else none

/-- Decode the remainder of a double-quoted scalar (the opening quote has
been consumed): backslash escapes the next character, the closing quote may
only be followed by trailing blanks.  Modelled from the spec: the decoder
of the header region is the external library; §4.2 describes a repaired
value as parsed as a quoted literal string. -/
def decodeDQ : List Char → Except String (List Char)
  | [] => Except.error "unexpected end of double-quoted scalar"
  | c :: rest =>
    if c = '"' then
      if rest.dropWhile isWsChar = [] then Except.ok []
      else Except.error "unexpected content after quoted scalar"
    else if c = '\\' then
      match rest with
      | [] => Except.error "unexpected end of escape sequence"
      | e :: rest' =>
        match unescapeChar e with
        | some u => (decodeDQ rest').map (fun l => u :: l)
        | none => Except.error "unknown escape sequence"
    else (decodeDQ rest).map (fun l => c :: l)

/-- Decode the remainder of a single-quoted scalar (opening quote consumed).
Modelled from the spec: simplified single-quoted form of the external
decoder's scalar syntax. -/
def decodeSQ : List Char → Except String (List Char)
  | [] => Except.error "unexpected end of single-quoted scalar"
  | c :: rest =>
    if c = squote then
      if rest.dropWhile isWsChar = [] then Except.ok []
      else Except.error "unexpected content after quoted scalar"
    else (decodeSQ rest).map (fun l => c :: l)

/-- Decode one scalar value of a header line.  Modelled from the spec: the
external decoder parses quoted values as literal strings and rejects plain
values that introduce a nested mapping (a colon followed by a blank). -/
def decodeScalar (v : String) : Except String String :=
  if v.data = [] then Except.ok ""
  else if v.data.headD ' ' = '"' then (decodeDQ v.data.tail).map (fun l => ⟨l⟩)
  else if v.data.headD ' ' = squote then (decodeSQ v.data.tail).map (fun l => ⟨l⟩)
  else if hasSubstr v ": " then Except.error ("mapping values are not allowed here: " ++ v)
  else Except.ok v

/-- Decode one `key: value` header line.  Modelled from the spec: top-level
keys of the external decoder start in the first column and are word-shaped.
-/
def decodeLine (line : String) : Except String (String × String) :=
  let w := line.data.takeWhile isWordChar
  let rest := line.data.dropWhile isWordChar
  if line.data.takeWhile isWsChar ≠ [] then Except.error ("bad indentation: " ++ line)
  else if w = [] then Except.error ("bad mapping line: " ++ line)
  else if rest.headD ' ' = ':' then
    (decodeScalar ⟨rest.tail.dropWhile isWsChar⟩).map (fun v => (⟨w⟩, v))
  else Except.error ("bad mapping line: " ++ line)

/-- Decode the header region line by line, skipping blank lines; the first
failing line aborts with its error.  Modelled from the spec (external
decoder). -/
def decodeHeader : List String → Except String (List (String × String))
  | [] => Except.ok []
  | line :: rest =>
    if line.data.all isWsChar then decodeHeader rest
    else
      match decodeLine line with
      | Except.error e => Except.error e
      | Except.ok kv =>
        match decodeHeader rest with
        | Except.error e => Except.error e
        | Except.ok others => Except.ok (kv :: others)

/-- Split the lines after the opening delimiter at the first closing `---`
line. -/
def splitAtDelim : List String → Option (List String × List String)
  | [] => none
  | l :: rest =>
    if l = "---" then some ([], rest)
    else (splitAtDelim rest).map (fun p => (l :: p.1, p.2))

/-- Model of the `matter(content)` call: when the text starts with a `---`
delimiter line and a closing `---` line follows, the region in between is
decoded as key/value data and the remainder is the body; otherwise the
metadata is empty and the body is the whole text.  Modelled from the spec
(§4.2); the decoder itself is the external `gray-matter`/js-yaml library. -/
def matterDecode (content : String) : Except String (List (String × String) × String) :=
  match splitLines content with
  | [] => Except.ok ([], content)
  | first :: rest =>
    if first = "---" then
      match splitAtDelim rest with
      | none => Except.ok ([], content)
      | some (header, bodyLines) =>
        match decodeHeader header with
        | Except.error e => Except.error e
        | Except.ok pairs => Except.ok (pairs, String.intercalate "\n" bodyLines)
    else Except.ok ([], content)

/-- The per-line regex match `^(\s*[\w-]+):\s*(.*)$` of `fixFrontmatter`:
returns the captured key (including its leading blanks, as the capture
group does) and the value with leading blanks stripped. -/
def parseKeyVal (line : String) : Option (String × String) :=
  let cs := line.data
  let ws := cs.takeWhile isWsChar
  let r1 := cs.dropWhile isWsChar
  let w := r1.takeWhile isWordChar
  let r2 := r1.dropWhile isWordChar
  if w.isEmpty then none
  else
    match r2 with
    | ':' :: rest => some (⟨ws ++ w⟩, ⟨rest.dropWhile isWsChar⟩)
    | _ => none

/-- The replacement `value.replace(/"/g, '\\"')` inside `fixFrontmatter`:
escape every double quote. -/
def escapeQuotes (s : String) : String :=
  ⟨s.data.foldr (fun c acc => if c = '"' then '\\' :: '"' :: acc else c :: acc) []⟩

/-- One line of the `fixFrontmatter` repair pass (`file-discovery.ts`
lines 158-179): when the line has `key: value` shape and the value is
non-empty, unquoted, not array- or object-like, and contains a colon or a
hash, the whole value is re-quoted with embedded quotes escaped. -/
def fixLine (line : String) : String :=
  match parseKeyVal line with
  | none => line
  | some (key, value) =>
    if (value != "") && !(jsStartsWith value "\"") && !(jsStartsWith value "'") &&
        !(jsStartsWith value "[") && !(jsStartsWith value "\x7b") &&
        (hasSubstr value ":" || hasSubstr value "#") then
      key ++ ": \"" ++ escapeQuotes value ++ "\""
    else line

/-- The frontmatter-region match `^---\n([\s\S]*?)\n---` of
`fixFrontmatter`: the text must start with a delimiter line, and the region
runs to the first following `\n---`. -/
def extractFM (content : String) : Option String :=
  if jsStartsWith content "---\n" then
    (splitOnFirst ("\n---").data (content.data.drop 4)).map (fun p => ⟨p.1⟩)
  else none

/-- Embedding of `FileDiscovery.fixFrontmatter` (`file-discovery.ts` lines
152-183): extract the header region, repair each line, and splice the
repaired region back over the first occurrence of the original region. -/
def fixFrontmatter (content : String) : String :=
  match extractFM content with
  | none => content
  | some fm =>
    let fixedFm := String.intercalate "\n" ((splitLines fm).map fixLine)
    replaceFirstStr content fm fixedFm

/-- The decode-with-repair flow of `parseAgentFile` (`file-discovery.ts`
lines 96-111): attempt the decode; on failure repair once and re-decode; if
that also fails, surface the original error. -/
def matterWithRepair (content : String) : Except String (List (String × String) × String) :=
  match matterDecode content with
  | Except.ok r => Except.ok r
  | Except.error e =>
    match matterDecode (fixFrontmatter content) with
    | Except.ok r => Except.ok r
    | Except.error _ => Except.error e

/-- JavaScript truthiness of an optional string field: present and
non-empty. -/
def truthy : Option String → Bool
  | none => false
  | some s => s != ""

/-- Model of `relative(baseDir, filePath)` for files below `baseDir`. -/
def relativeTo (base p : String) : String :=
  if jsStartsWith p (base ++ "/") then ⟨p.data.drop (base.data.length + 1)⟩ else p

/-- Embedding of `FileDiscovery.parseAgentFile` (`file-discovery.ts` lines
91-127): `ok none` when the file is missing or lacks a non-empty `name` or
`description`; `error` when reading fails or both decode attempts fail. -/
def parseAgentFile (fs : FS) (filePath baseDir : String) (scope : Scope) :
    Except String (Option AgentFile) :=
  if !(fsExists fs filePath) then Except.ok none
  else
    match fsRead fs filePath with
    | none => Except.error ("EACCES: cannot read file: " ++ filePath)
    | some content =>
      match matterWithRepair content with
      | Except.error e => Except.error e
      | Except.ok (pairs, body) =>
        if !(truthy (assocFind "name" pairs) && truthy (assocFind "description" pairs)) then
          Except.ok none
        else
          Except.ok (some
            { path := filePath
              relativePath := relativeTo baseDir filePath
              frontmatter :=
                { name := (assocFind "name" pairs).getD ""
                  description := (assocFind "description" pairs).getD ""
                  tools := assocFind "tools" pairs
                  model := assocFind "model" pairs }
              content := body
              scope := scope })

/-- One agents directory together with the files the glob found below it. -/
structure ScanRoot : Type where
  path : String
  scope : Scope
  files : List String
deriving DecidableEq, Repr

/-- The per-file loop of `discoverAgents` (`file-discovery.ts` lines
23-33): parse each file, keep successful entries, and skip files whose
parse returns nothing or throws (the exception is caught and logged). -/
def scanFiles (fs : FS) (root : ScanRoot) : List AgentFile :=
  root.files.filterMap (fun f =>
    match parseAgentFile fs f root.path root.scope with
    | Except.ok (some a) => some a
    | Except.ok none => none
    | Except.error _ => none)

/-- Embedding of `FileDiscovery.discoverAgents` over the valid roots: the
concatenation of the per-root scans. -/
def discoverAgents (fs : FS) (roots : List ScanRoot) : List AgentFile :=
  roots.flatMap (fun r => scanFiles fs r)

/-- The lowercase image of each ASCII uppercase letter. -/
def lowerPairs : List (Char × Char) :=
  [('A', 'a'), ('B', 'b'), ('C', 'c'), ('D', 'd'), ('E', 'e'), ('F', 'f'),
   ('G', 'g'), ('H', 'h'), ('I', 'i'), ('J', 'j'), ('K', 'k'), ('L', 'l'),
   ('M', 'm'), ('N', 'n'), ('O', 'o'), ('P', 'p'), ('Q', 'q'), ('R', 'r'),
   ('S', 's'), ('T', 't'), ('U', 'u'), ('V', 'v'), ('W', 'w'), ('X', 'x'),
   ('Y', 'y'), ('Z', 'z')]

/-- Normalize one character of an agent name: uppercase letters map to
their lowercase forms, lowercase letters and digits are kept, everything
else becomes a hyphen. -/
def normChar (c : Char) : Char :=
  match assocFind c lowerPairs with
  | some l => l
  | none => if c.isLower || c.isDigit then c else '-'

/-- Modelled from the spec: `CommandGenerator.generateCommandName`
(`deriveName`, §4.4) is not under `src/`; the spec requires a pure,
deterministic, idempotent normalization producing a filesystem-safe
lowercase-hyphenated token (lowercase, non-alphanumeric to hyphen). -/
def generateCommandName (name : String) : String := ⟨name.data.map normChar⟩

/-- The ten decimal digit characters. -/
def digitChars : List Char := ['0', '1', '2', '3', '4', '5', '6', '7', '8', '9']

/-- The character of one decimal digit. -/
def digitChar (d : Nat) : Char := (digitChars.get? d).getD '0'

/-- Fuel-driven decimal digit expansion (least-significant first); the fuel
`n` itself always suffices. -/
def natDigitsAux : Nat → Nat → List Char
  | 0, _ => []
  | _ + 1, 0 => []
  | fuel + 1, n + 1 => digitChar ((n + 1) % 10) :: natDigitsAux fuel ((n + 1) / 10)

/-- Decimal rendering of a natural number (models `toString` on the numeric
disambiguation suffix). -/
def natToStr (n : Nat) : String :=
  if n = 0 then "0" else ⟨(natDigitsAux n n).reverse⟩

/-- Try the suffixed candidates `base-k`, `base-(k+1)`, ... until one is
not yet claimed, with enough fuel to always find one. -/
def pickFreeAux (used : List String) (base : String) : Nat → Nat → String
  | 0, k => base ++ "-" ++ natToStr k
  | fuel + 1, k =>
    let cand := base ++ "-" ++ natToStr k
    if cand ∈ used then pickFreeAux used base fuel (k + 1) else cand

/-- Modelled from the spec (§4.4): assign the derived name itself when it
is unclaimed, otherwise append numeric suffixes `-2`, `-3`, ... and retry
until an unclaimed identifier is found. -/
def pickFree (used : List String) (base : String) : String :=
  if base ∈ used then pickFreeAux used base (used.length + 1) 2 else base

/-- Modelled from the spec (§4.4): process agents in their given order,
one map entry per distinct logical name, each receiving the first
unclaimed candidate identifier. -/
def resolveLoop : List AgentFile → List (String × String) → List (String × String)
  | [], acc => acc
  | a :: rest, acc =>
    let nm := a.frontmatter.name
    if (assocFind nm acc).isSome then resolveLoop rest acc
    else resolveLoop rest (acc ++ [(nm, pickFree (acc.map Prod.snd) (generateCommandName nm))])

/-- Modelled from the spec: `CommandGenerator.resolveNamingConflicts`
(§4.4) is not under `src/`; it maps each distinct agent logical name to a
final command identifier, disambiguating collisions in input order. -/
def resolveNamingConflicts (agents : List AgentFile) : List (String × String) :=
  resolveLoop agents []

/-- The commands directory of a target scope (`PathUtils`). -/
def commandsDir : Scope → String
  | Scope.project => ".claude/commands"
  | Scope.user => "HOME/.claude/commands"

/-- Modelled from the spec (§4.5): the generated file embeds both signature
tokens together with a minimal header and the agent body. -/
def renderCommand (agent : AgentFile) : String :=
  "---\ndescription: " ++ agent.frontmatter.description ++ "\n---\n\n" ++
    agent.content ++ "\n\n" ++ genMarker ++ "\n<!-- " ++ genPhrase ++ " -->\n"

/-- The destination path of a generated command. -/
def targetPath (targetScope : Scope) (agent : AgentFile) : String :=
  commandsDir targetScope ++ "/" ++ generateCommandName agent.frontmatter.name ++ ".md"

/-- Modelled from the spec: `CommandGenerator.generateCommand` (§4.5) is
not under `src/`; it refuses to overwrite an existing destination unless
`force` is set, surfacing a distinguishable already-exists message, and
otherwise writes the rendered content. -/
def generateCommand (fs : FS) (agent : AgentFile) (targetScope : Scope) (force : Bool) :
    Except String (FS × String) :=
  let commandName := generateCommandName agent.frontmatter.name
  let path := targetPath targetScope agent
  if fsExists fs path && !force then
    Except.error ("Command file already exists: " ++ path)
  else
    Except.ok (fsWrite fs path (renderCommand agent), commandName)

/-- Accumulated state of the generation batch loop (`generate.ts` lines
200-222). -/
structure GenSummary : Type where
  fs : FS
  generated : List String
  skipped : List String
  errors : List String

/-- One step of the generation batch loop: success appends to `generated`;
an error whose message mentions `already exists` is recorded as a skip, any
other error is collected; the loop always continues. -/
def generateBatchStep (nameMap : List (String × String)) (targetScope : Scope) (force : Bool)
    (st : GenSummary) (agent : AgentFile) : GenSummary :=
  match generateCommand st.fs agent targetScope force with
  | Except.ok (fs', name) => { st with fs := fs', generated := st.generated ++ [name] }
  | Except.error e =>
    let commandName := (assocFind agent.frontmatter.name nameMap).getD agent.frontmatter.name
    if hasSubstr e "already exists" then { st with skipped := st.skipped ++ [commandName] }
    else { st with errors := st.errors ++ [commandName ++ ": " ++ e] }

/-- Embedding of the generation batch of `generateCommands` (`generate.ts`
lines 200-222). -/
def generateBatch (fs : FS) (agents : List AgentFile) (targetScope : Scope) (force : Bool) :
    GenSummary :=
  agents.foldl (generateBatchStep (resolveNamingConflicts agents) targetScope force)
    { fs := fs, generated := [], skipped := [], errors := [] }

/-- The three-way classification computed by sync. -/
structure SyncPlan : Type where
  toCreate : List AgentFile
  toUpdate : List (AgentFile × CommandFile)
  toDelete : List String
deriving DecidableEq, Repr

/-- The command name derived from an existing command file inside sync:
`relativePath.replace('.md', '')`, which removes only the first occurrence.
-/
def commandNameOf (c : CommandFile) : String := replaceFirstStr c.relativePath ".md" ""

/-- The match test of the sync reconciliation (`sync.ts` lines 68-71): a
command file matches an expected name when its derived name (the first
`.md` removed) equals it; a missing expected name (the agent is absent
from the map, `undefined` in the source) matches nothing. -/
def expectedMatches (expected : Option String) (c : CommandFile) : Bool :=
  match expected with
  | some e => decide (commandNameOf c = e)
  | none => false

/-- Embedding of the classification phase of `syncCommands` (`sync.ts`
lines 48-88): filter to generated commands, resolve names, pair each agent
with the first generated command whose derived name equals the agent's
resolved name (update) or mark it for creation, and, when the clean flag is
set, mark every generated command whose derived name is not expected for
deletion. -/
def syncClassify (fs : FS) (agents : List AgentFile) (existing : List CommandFile)
    (clean : Bool) : SyncPlan :=
  let generatedCommands := existing.filter (fun c => isGeneratedFile fs c.path)
  let nameMap := resolveNamingConflicts agents
  let expectedCommands := nameMap.map Prod.snd
  let findFor := fun (a : AgentFile) =>
    generatedCommands.find? (expectedMatches (assocFind a.frontmatter.name nameMap))
  { toCreate := agents.filter (fun a => (findFor a).isNone)
    toUpdate := agents.filterMap (fun a => (findFor a).map (fun c => (a, c)))
    toDelete :=
      if clean then
        ((generatedCommands.filter (fun c =>
          decide (commandNameOf c ∉ expectedCommands))).map (fun c => c.path))
      else [] }

/-- One step of the deletion loop of sync (`sync.ts` lines 152-161):
delete the path, counting a success or collecting a per-item error. -/
def deleteStep (st : FS × Nat × List String) (p : String) : FS × Nat × List String :=
  match unlink st.1 p with
  | Except.ok fs' => (fs', st.2.1 + 1, st.2.2)
  | Except.error e => (st.1, st.2.1, st.2.2 ++ ["Failed to delete " ++ p ++ ": " ++ e])

/-- The deletion loop of sync (`sync.ts` lines 152-161): delete each marked
path, counting successes and collecting per-item errors without aborting. -/
def applyDeletes (fs : FS) (paths : List String) : FS × Nat × List String :=
  paths.foldl deleteStep (fs, 0, [])

/-- The execution phase of `syncCommands` (`sync.ts` lines 124-161):
creates and updates both call the generator with `force = true`, then the
marked deletions run; every loop continues past per-item failures. -/
def syncApply (fs : FS) (targetScope : Scope) (plan : SyncPlan) : FS × List String :=
  let step := fun (st : FS × List String) (a : AgentFile) =>
    match generateCommand st.1 a targetScope true with
    | Except.ok (fs', _) => (fs', st.2)
    | Except.error e => (st.1, st.2 ++ [e])
  let s1 := plan.toCreate.foldl step (fs, [])
  let s2 := (plan.toUpdate.map Prod.fst).foldl step s1
  let s3 := applyDeletes s2.1 plan.toDelete
  (s3.1, s2.2 ++ s3.2.2)

/-! ## General lemmas about the string and list helpers -/

theorem str_data_append (s t : String) : (s ++ t).data = s.data ++ t.data := by
  cases s; cases t; rfl

theorem str_data_inj {s t : String} (h : s.data = t.data) : s = t :=
  congrArg String.mk h

theorem str_mk_data (s : String) : (⟨s.data⟩ : String) = s := by
  cases s; rfl

theorem str_append_left_cancel {s a b : String} (h : s ++ a = s ++ b) : a = b := by
  have hd := congrArg String.data h
  rw [str_data_append, str_data_append] at hd
  exact str_data_inj (List.append_cancel_left hd)

theorem isPrefixOf_append_right {pat a : List Char} (b : List Char)
    (h : pat.isPrefixOf a = true) : pat.isPrefixOf (a ++ b) = true := by
  induction pat generalizing a with
  | nil => simp [List.isPrefixOf]
  | cons p ps ih =>
    cases a with
    | nil => simp [List.isPrefixOf] at h
    | cons x xs =>
      simp only [List.isPrefixOf, List.cons_append, Bool.and_eq_true] at h ⊢
      exact ⟨h.1, ih h.2⟩

theorem listInfix_append_right (pat a b : List Char) (h : listInfix pat a = true) :
    listInfix pat (a ++ b) = true := by
  induction a with
  | nil =>
    simp only [listInfix] at h
    have : pat = [] := by
      cases pat with
      | nil => rfl
      | cons p ps => simp [List.isPrefixOf] at h
    subst this
    cases b <;> simp [listInfix, List.isPrefixOf]
  | cons c cs ih =>
    simp only [listInfix, Bool.or_eq_true, List.cons_append] at h ⊢
    rcases h with h | h
    · exact Or.inl (isPrefixOf_append_right b h)
    · exact Or.inr (ih h)

theorem hasSubstr_append_right (a b pat : String) (h : hasSubstr a pat = true) :
    hasSubstr (a ++ b) pat = true := by
  unfold hasSubstr at h ⊢
  rw [str_data_append]
  exact listInfix_append_right pat.data a.data b.data h

theorem takeWhile_all_append {p : Char → Bool} {l : List Char} {x : Char} (r : List Char)
    (hl : ∀ c ∈ l, p c = true) (hx : p x = false) :
    (l ++ x :: r).takeWhile p = l ∧ (l ++ x :: r).dropWhile p = x :: r := by
  induction l with
  | nil => simp [List.takeWhile_cons, List.dropWhile_cons, hx]
  | cons c cs ih =>
    have hc : p c = true := hl c (by simp)
    have ih' := ih (fun d hd => hl d (by simp [hd]))
    simp [List.takeWhile_cons, List.dropWhile_cons, hc, ih'.1, ih'.2]

theorem wsChar_not_wordChar {c : Char} (h : isWsChar c = true) : isWordChar c = false := by
  unfold isWsChar at h
  rcases Bool.or_eq_true_iff.1 h with h | h <;>
    simp only [decide_eq_true_eq] at h <;> subst h <;> decide

theorem wordChar_not_wsChar {c : Char} (h : isWordChar c = true) : isWsChar c = false := by
  by_contra hne
  have hws : isWsChar c = true := by
    cases hv : isWsChar c
    · exact absurd hv hne
    · rfl
  rw [wsChar_not_wordChar hws] at h
  exact Bool.false_ne_true h

theorem assocFind_mem {α β : Type} [DecidableEq α] {k : α} {v : β} {l : List (α × β)}
    (h : assocFind k l = some v) : (k, v) ∈ l := by
  induction l with
  | nil => simp [assocFind] at h
  | cons e rest ih =>
    obtain ⟨k', v'⟩ := e
    by_cases hk : k = k'
    · subst hk
      rw [assocFind, if_pos rfl] at h
      injection h with hv
      subst hv
      exact List.mem_cons_self _ _
    · rw [assocFind, if_neg hk] at h
      exact List.mem_cons_of_mem _ (ih h)

theorem assocFind_isSome_iff {α β : Type} [DecidableEq α] (k : α) (l : List (α × β)) :
    (assocFind k l).isSome = true ↔ k ∈ l.map Prod.fst := by
  induction l with
  | nil => simp [assocFind]
  | cons e rest ih =>
    obtain ⟨k', v'⟩ := e
    by_cases hk : k = k'
    · subst hk
      rw [assocFind, if_pos rfl]
      simp
    · rw [assocFind, if_neg hk]
      simp [ih, hk]

theorem assocFind_eq_none {α β : Type} [DecidableEq α] {k : α} {l : List (α × β)}
    (h : k ∉ l.map Prod.fst) : assocFind k l = none := by
  cases hv : assocFind k l with
  | none => rfl
  | some v =>
    exact absurd ((assocFind_isSome_iff k l).1 (by simp [hv])) h

theorem assocFind_append_of_some {α β : Type} [DecidableEq α] {k : α} {v : β}
    {l1 : List (α × β)} (l2 : List (α × β)) (h : assocFind k l1 = some v) :
    assocFind k (l1 ++ l2) = some v := by
  induction l1 with
  | nil => simp [assocFind] at h
  | cons e rest ih =>
    obtain ⟨k', v'⟩ := e
    rw [List.cons_append, assocFind]
    by_cases hk : k = k'
    · subst hk
      rw [assocFind, if_pos rfl] at h
      rw [if_pos rfl]
      exact h
    · rw [assocFind, if_neg hk] at h
      rw [if_neg hk]
      exact ih h

theorem assocFind_append_of_none {α β : Type} [DecidableEq α] {k : α}
    {l1 : List (α × β)} (l2 : List (α × β)) (h : assocFind k l1 = none) :
    assocFind k (l1 ++ l2) = assocFind k l2 := by
  induction l1 with
  | nil => simp
  | cons e rest ih =>
    obtain ⟨k', v'⟩ := e
    rw [List.cons_append, assocFind]
    by_cases hk : k = k'
    · subst hk
      rw [assocFind, if_pos rfl] at h
      exact absurd h (by simp)
    · rw [assocFind, if_neg hk] at h
      rw [if_neg hk]
      exact ih h

theorem nodup_append_singleton {α : Type} {l : List α} {x : α}
    (hl : l.Nodup) (hx : x ∉ l) : (l ++ [x]).Nodup := by
  simp [List.nodup_append, hl, hx, List.disjoint_singleton]

/-! ## Properties of the name normalization -/

theorem normChar_idem (c : Char) : normChar (normChar c) = normChar c := by
  unfold normChar
  cases h : assocFind c lowerPairs with
  | some l =>
    have hmem : (c, l) ∈ lowerPairs := assocFind_mem h
    have hfact : ∀ p ∈ lowerPairs, assocFind p.2 lowerPairs = none ∧ p.2.isLower = true := by
      decide
    obtain ⟨hnone, hlow⟩ := hfact _ hmem
    rw [hnone]
    simp [hlow]
  | none =>
    by_cases hc : (c.isLower || c.isDigit) = true
    · rw [if_pos hc, h, if_pos hc]
    · rw [if_neg hc]
      have h1 : assocFind '-' lowerPairs = none := by decide
      have h2 : (Char.isLower '-' || Char.isDigit '-') = false := by decide
      rw [h1, h2]
      simp

theorem normChar_ne_slash (c : Char) : normChar c ≠ '/' := by
  unfold normChar
  cases h : assocFind c lowerPairs with
  | some l =>
    have hmem : (c, l) ∈ lowerPairs := assocFind_mem h
    have hfact : ∀ p ∈ lowerPairs, p.2 ≠ '/' := by decide
    exact hfact _ hmem
  | none =>
    by_cases hc : (c.isLower || c.isDigit) = true
    · rw [if_pos hc]
      intro hcs
      subst hcs
      exact absurd hc (by decide)
    · rw [if_neg hc]
      decide

theorem generateCommandName_no_slash (n : String) : '/' ∉ (generateCommandName n).data := by
  unfold generateCommandName
  intro hmem
  simp only [List.mem_map] at hmem
  obtain ⟨c, _, hc⟩ := hmem
  exact normChar_ne_slash c hc

/-- Claim C9: for every input name, the command-name derivation
`generateCommandName` (the spec's `deriveName`) is idempotent:
applying it to its own output returns that output unchanged.  It is
deterministic by construction, being a pure function of its argument. -/
theorem c9_deriveName_idempotent (x : String) :
    generateCommandName (generateCommandName x) = generateCommandName x := by
  unfold generateCommandName
  apply str_data_inj
  simp only [List.map_map]
  exact List.map_congr_left (fun c _ => normChar_idem c)

/-- Claim C5: `isGeneratedFile` returns true iff the file exists, is
readable, and its raw text contains the human-readable phrase or the
machine comment marker; for a missing or unreadable path, or content with
neither token, it returns false (it is a total function, never an error).
-/
theorem c5_isGeneratedFile_signature (fs : FS) (p : String) :
    isGeneratedFile fs p = true ↔
      ∃ c, fsRead fs p = some c ∧
        (hasSubstr c genPhrase || hasSubstr c genMarker) = true := by
  unfold isGeneratedFile fsRead
  cases h : assocFind p fs with
  | none => simp
  | some o =>
    cases o with
    | none => simp
    | some content => simp

theorem fsRead_some {fs : FS} {p content : String} (h : fsRead fs p = some content) :
    assocFind p fs = some (some content) := by
  unfold fsRead at h
  cases hf : assocFind p fs with
  | none => rw [hf] at h; simp at h
  | some o =>
    rw [hf] at h
    simp only [Option.bind, id] at h
    rw [h]

theorem fsExists_of_read {fs : FS} {p content : String} (h : fsRead fs p = some content) :
    fsExists fs p = true := by
  unfold fsExists
  rw [fsRead_some h]
  rfl

/-- Claim C4: a scanned file whose header decodes but lacks a present,
non-empty `name` or `description` yields no entry: `parseAgentFile`
returns `ok none` (a silent skip), never an error. -/
theorem c4_missing_field_skipped (fs : FS) (fp base : String) (sc : Scope)
    (content body : String) (pairs : List (String × String))
    (hread : fsRead fs fp = some content)
    (hdec : matterWithRepair content = Except.ok (pairs, body))
    (hmiss : truthy (assocFind "name" pairs) = false ∨
      truthy (assocFind "description" pairs) = false) :
    parseAgentFile fs fp base sc = Except.ok none := by
  have hex : fsExists fs fp = true := fsExists_of_read hread
  have hcond : (truthy (assocFind "name" pairs) &&
      truthy (assocFind "description" pairs)) = false := by
    rcases hmiss with h | h <;> simp [h]
  unfold parseAgentFile
  rw [hex, hread]
  simp only [Bool.not_true, Bool.false_eq_true, if_false]
  rw [hdec]
  simp [hcond]

/-- Witness for C4: a concrete agent file with a `name` but no
`description` is skipped with no error. -/
theorem c4_missing_field_skipped_witness :
    fsRead [("a.md", some "---\nname: foo\n---\nbody")] "a.md" =
      some "---\nname: foo\n---\nbody" ∧
    matterWithRepair "---\nname: foo\n---\nbody" =
      Except.ok ([("name", "foo")], "body") ∧
    truthy (assocFind "description" [("name", "foo")]) = false ∧
    parseAgentFile [("a.md", some "---\nname: foo\n---\nbody")] "a.md" "base" Scope.project =
      Except.ok none :=
  ⟨by rfl, by rfl, by rfl,
    c4_missing_field_skipped [("a.md", some "---\nname: foo\n---\nbody")] "a.md" "base"
      Scope.project "---\nname: foo\n---\nbody" "body" [("name", "foo")]
      (by rfl) (by rfl) (Or.inr (by rfl))⟩

/-- Claim C7: when the first header decode fails, the parser re-decodes
exactly once on the repaired text: a successful repair decode is the
result that is used, and when the repair decode also fails the error
surfaced by `parseAgentFile` is the original decode error. -/
theorem c7_repair_propagates_original_error (fs : FS) (fp base : String) (sc : Scope)
    (content e : String)
    (hread : fsRead fs fp = some content)
    (h1 : matterDecode content = Except.error e) :
    (∀ r, matterDecode (fixFrontmatter content) = Except.ok r →
      matterWithRepair content = Except.ok r) ∧
    (∀ e', matterDecode (fixFrontmatter content) = Except.error e' →
      parseAgentFile fs fp base sc = Except.error e) := by
  constructor
  · intro r hr
    unfold matterWithRepair
    rw [h1, hr]
  · intro e' h2
    have hrep : matterWithRepair content = Except.error e := by
      unfold matterWithRepair
      rw [h1, h2]
    have hex : fsExists fs fp = true := fsExists_of_read hread
    unfold parseAgentFile
    rw [hex, hread]
    simp only [Bool.not_true, Bool.false_eq_true, if_false]
    rw [hrep]

/-- Witness for C7: a file whose header fails on `a: b: c` and whose
repaired header still fails on a second malformed line surfaces the
original error; and a file whose repaired header decodes is recovered. -/
theorem c7_repair_propagates_original_error_witness :
    matterDecode "---\na: b: c\n?? bad\n---\n" =
      Except.error "mapping values are not allowed here: b: c" ∧
    matterDecode (fixFrontmatter "---\na: b: c\n?? bad\n---\n") =
      Except.error "bad mapping line: ?? bad" ∧
    parseAgentFile [("x.md", some "---\na: b: c\n?? bad\n---\n")] "x.md" "base" Scope.user =
      Except.error "mapping values are not allowed here: b: c" ∧
    matterWithRepair "---\nname: a: b\n---\nbody" =
      Except.ok ([("name", "a: b")], "body") :=
  ⟨by rfl, by rfl,
    (c7_repair_propagates_original_error [("x.md", some "---\na: b: c\n?? bad\n---\n")]
        "x.md" "base" Scope.user "---\na: b: c\n?? bad\n---\n"
        "mapping values are not allowed here: b: c" (by rfl) (by rfl)).2
      "bad mapping line: ?? bad" (by rfl),
    (c7_repair_propagates_original_error [("y.md", some "---\nname: a: b\n---\nbody")]
        "y.md" "base" Scope.user "---\nname: a: b\n---\nbody"
        "mapping values are not allowed here: a: b" (by rfl) (by rfl)).1
      ([("name", "a: b")], "body") (by rfl)⟩

/-! ## Claims C6 and C8: already-exists handling and batch continuation -/

theorem pickFree_nil (base : String) : pickFree [] base = base := by
  simp [pickFree]

theorem resolveNamingConflicts_singleton (a : AgentFile) :
    resolveNamingConflicts [a] =
      [(a.frontmatter.name, generateCommandName a.frontmatter.name)] := by
  simp only [resolveNamingConflicts, resolveLoop, assocFind, Option.isSome_none,
    Bool.false_eq_true, if_false, List.map_nil, List.nil_append, pickFree_nil]

/-- Claim C6: generating a command whose destination already exists with
`force` unset writes nothing (the filesystem is unchanged and the existing
entry keeps its content), fails with a message containing the
distinguishable phrase, and the batch loop records the item as a skip, not
an error. -/
theorem c6_generate_already_exists (fs : FS) (agent : AgentFile) (sc : Scope)
    (entry : Option String)
    (h : assocFind (targetPath sc agent) fs = some entry) :
    generateCommand fs agent sc false =
      Except.error ("Command file already exists: " ++ targetPath sc agent) ∧
    hasSubstr ("Command file already exists: " ++ targetPath sc agent)
      "already exists" = true ∧
    generateBatch fs [agent] sc false =
      { fs := fs, generated := [],
        skipped := [generateCommandName agent.frontmatter.name], errors := [] } ∧
    assocFind (targetPath sc agent) (generateBatch fs [agent] sc false).fs = some entry := by
  have hex : fsExists fs (targetPath sc agent) = true := by
    unfold fsExists
    rw [h]
    rfl
  have hsub : hasSubstr ("Command file already exists: " ++ targetPath sc agent)
      "already exists" = true := by
    apply hasSubstr_append_right
    decide
  have hgen : generateCommand fs agent sc false =
      Except.error ("Command file already exists: " ++ targetPath sc agent) := by
    simp [generateCommand, hex]
  have hbatch : generateBatch fs [agent] sc false =
      { fs := fs, generated := [],
        skipped := [generateCommandName agent.frontmatter.name], errors := [] } := by
    unfold generateBatch
    rw [List.foldl_cons, List.foldl_nil]
    unfold generateBatchStep
    rw [hgen]
    simp [hsub, resolveNamingConflicts_singleton, assocFind, pickFree_nil]
  refine ⟨hgen, hsub, hbatch, ?_⟩
  rw [hbatch]
  exact h

/-- Witness for C6: a concrete destination that already holds content is
left untouched and reported as a skip. -/
theorem c6_generate_already_exists_witness :
    assocFind ".claude/commands/foo.md"
      ([(".claude/commands/foo.md", some "old content")] : FS) = some (some "old content") ∧
    generateBatch [(".claude/commands/foo.md", some "old content")]
        [{ path := "a/foo.md", relativePath := "foo.md",
           frontmatter := { name := "foo", description := "d", tools := none, model := none },
           content := "b", scope := Scope.project }] Scope.project false =
      { fs := [(".claude/commands/foo.md", some "old content")], generated := [],
        skipped := ["foo"], errors := [] } :=
  ⟨by rfl,
    (c6_generate_already_exists [(".claude/commands/foo.md", some "old content")]
      { path := "a/foo.md", relativePath := "foo.md",
        frontmatter := { name := "foo", description := "d", tools := none, model := none },
        content := "b", scope := Scope.project }
      Scope.project (some "old content") (by rfl)).2.2.1⟩

theorem genBatchStep_counts (nm : List (String × String)) (sc : Scope) (force : Bool) :
    ∀ (agents : List AgentFile) (st : GenSummary),
      (agents.foldl (generateBatchStep nm sc force) st).generated.length +
        (agents.foldl (generateBatchStep nm sc force) st).skipped.length +
        (agents.foldl (generateBatchStep nm sc force) st).errors.length =
      st.generated.length + st.skipped.length + st.errors.length + agents.length := by
  intro agents
  induction agents with
  | nil => intro st; simp
  | cons a rest ih =>
    intro st
    rw [List.foldl_cons, ih]
    unfold generateBatchStep
    cases hg : generateCommand st.fs a sc force with
    | ok r =>
      obtain ⟨fs', name⟩ := r
      simp
      omega
    | error e =>
      by_cases hs : hasSubstr e "already exists" = true
      · simp [hs]
        omega
      · simp [hs]
        omega

theorem deleteFold_counts :
    ∀ (paths : List String) (st : FS × Nat × List String),
      (paths.foldl deleteStep st).2.1 + (paths.foldl deleteStep st).2.2.length =
        st.2.1 + st.2.2.length + paths.length := by
  intro paths
  induction paths with
  | nil => intro st; simp
  | cons p rest ih =>
    intro st
    rw [List.foldl_cons, ih]
    unfold deleteStep
    cases unlink st.1 p with
    | ok fs' => simp; omega
    | error e => simp; omega

/-- Claim C8: batch loops continue past individual failures.  Discovery: a
file whose parse throws contributes nothing and the remaining files are
still scanned (the scan of a list with a failing file in the middle is the
concatenation of the scans of the two halves).  Generation and deletion:
every item of the batch is accounted for exactly once among the success,
skip, and error tallies, regardless of failures. -/
theorem c8_batch_continue_on_error :
    (∀ (fs : FS) (p : String) (sc : Scope) (pre post : List String) (bad e : String),
      parseAgentFile fs bad p sc = Except.error e →
      scanFiles fs ⟨p, sc, pre ++ bad :: post⟩ =
        scanFiles fs ⟨p, sc, pre⟩ ++ scanFiles fs ⟨p, sc, post⟩) ∧
    (∀ (fs : FS) (agents : List AgentFile) (sc : Scope) (force : Bool),
      (generateBatch fs agents sc force).generated.length +
        (generateBatch fs agents sc force).skipped.length +
        (generateBatch fs agents sc force).errors.length = agents.length) ∧
    (∀ (fs : FS) (paths : List String),
      (applyDeletes fs paths).2.1 + (applyDeletes fs paths).2.2.length = paths.length) := by
  refine ⟨?_, ?_, ?_⟩
  · intro fs p sc pre post bad e h
    simp [scanFiles, List.filterMap_append, List.filterMap_cons, h]
  · intro fs agents sc force
    unfold generateBatch
    rw [genBatchStep_counts]
    simp
  · intro fs paths
    unfold applyDeletes
    rw [deleteFold_counts]
    simp

/-- Witness for C8: a middle file that cannot be read does not stop the
scan of its siblings, a failed generation still tallies, and a failed
deletion still tallies. -/
theorem c8_batch_continue_on_error_witness :
    parseAgentFile [("g1.md", some "---\nname: a\ndescription: d\n---\nx"), ("bad.md", none)]
      "bad.md" "r" Scope.project = Except.error "EACCES: cannot read file: bad.md" ∧
    scanFiles [("g1.md", some "---\nname: a\ndescription: d\n---\nx"), ("bad.md", none)]
        ⟨"r", Scope.project, ["g1.md", "bad.md", "g1.md"]⟩ =
      scanFiles [("g1.md", some "---\nname: a\ndescription: d\n---\nx"), ("bad.md", none)]
          ⟨"r", Scope.project, ["g1.md"]⟩ ++
        scanFiles [("g1.md", some "---\nname: a\ndescription: d\n---\nx"), ("bad.md", none)]
          ⟨"r", Scope.project, ["g1.md"]⟩ ∧
    (applyDeletes [] ["gone.md"]).2.1 + (applyDeletes [] ["gone.md"]).2.2.length = 1 :=
  ⟨by rfl,
    c8_batch_continue_on_error.1
      [("g1.md", some "---\nname: a\ndescription: d\n---\nx"), ("bad.md", none)]
      "r" Scope.project ["g1.md"] ["g1.md"] "bad.md"
      "EACCES: cannot read file: bad.md" (by rfl),
    c8_batch_continue_on_error.2.2 [] ["gone.md"]⟩

/-! ## Claim C2: the frontmatter repair round-trip -/

theorem data_mk (l : List Char) : (⟨l⟩ : String).data = l := rfl

theorem escapeFold_noop (l : List Char) (h : '"' ∉ l) :
    l.foldr (fun c acc => if c = '"' then '\\' :: '"' :: acc else c :: acc) [] = l := by
  induction l with
  | nil => rfl
  | cons c t ih =>
    have hc : ¬ c = '"' := by
      intro hc
      subst hc
      exact h (List.mem_cons_self _ _)
    rw [List.foldr_cons, if_neg hc, ih (fun hm => h (List.mem_cons_of_mem _ hm))]

theorem escapeQuotes_noop (s : String) (h : '"' ∉ s.data) : escapeQuotes s = s := by
  apply str_data_inj
  unfold escapeQuotes
  rw [data_mk]
  exact escapeFold_noop s.data h

theorem decodeDQ_clean (l : List Char) (hq : '"' ∉ l) (hb : '\\' ∉ l) :
    decodeDQ (l ++ ['"']) = Except.ok l := by
  induction l with
  | nil => rfl
  | cons c t ih =>
    have hc1 : ¬ c = '"' := by
      intro hc
      subst hc
      exact hq (List.mem_cons_self _ _)
    have hc2 : ¬ c = '\\' := by
      intro hc
      subst hc
      exact hb (List.mem_cons_self _ _)
    rw [List.cons_append, decodeDQ.eq_def]
    simp only [if_neg hc1, if_neg hc2]
    rw [ih (fun hm => hq (List.mem_cons_of_mem _ hm)) (fun hm => hb (List.mem_cons_of_mem _ hm))]
    rfl

theorem parseKeyVal_inv {line key value : String}
    (h : parseKeyVal line = some (key, value)) :
    ∃ rest : List Char,
      key.data = line.data.takeWhile isWsChar ++
        (line.data.dropWhile isWsChar).takeWhile isWordChar ∧
      (line.data.dropWhile isWsChar).takeWhile isWordChar ≠ [] ∧
      (line.data.dropWhile isWsChar).dropWhile isWordChar = ':' :: rest ∧
      value.data = rest.dropWhile isWsChar := by
  simp only [parseKeyVal] at h
  split at h
  · exact absurd h (by simp)
  · rename_i hw
    split at h
    · rename_i rest heq
      rw [Option.some.injEq, Prod.mk.injEq] at h
      obtain ⟨hk, hv⟩ := h
      refine ⟨rest, ?_, ?_, heq, ?_⟩
      · rw [← hk, data_mk]
      · intro hnil
        rw [hnil] at hw
        exact absurd rfl hw
      · rw [← hv, data_mk]
    · exact absurd h (by simp)

theorem decodeLine_quoted (kw : List Char) (value : String)
    (hkne : kw ≠ []) (hkey : ∀ c ∈ kw, isWordChar c = true)
    (hnq : '"' ∉ value.data) (hnb : '\\' ∉ value.data) :
    decodeLine (⟨kw⟩ ++ ": \"" ++ value ++ "\"") = Except.ok (⟨kw⟩, value) := by
  have hdata : ((⟨kw⟩ : String) ++ ": \"" ++ value ++ "\"").data =
      kw ++ ':' :: ' ' :: '"' :: (value.data ++ ['"']) := by
    rw [str_data_append, str_data_append, str_data_append, data_mk]
    show kw ++ [':', ' ', '"'] ++ value.data ++ ['"'] = _
    simp
  have hpair := takeWhile_all_append (p := isWordChar)
    (l := kw) (x := ':') (' ' :: '"' :: (value.data ++ ['"'])) hkey (by decide)
  have hws : (kw ++ ':' :: ' ' :: '"' :: (value.data ++ ['"'])).takeWhile isWsChar = [] := by
    cases hk : kw with
    | nil => exact absurd hk hkne
    | cons c0 t =>
      have hc0 : isWordChar c0 = true := hkey c0 (by rw [hk]; exact List.mem_cons_self _ _)
      rw [List.cons_append, List.takeWhile_cons, wordChar_not_wsChar hc0]
      simp
  simp only [decodeLine]
  rw [hdata, hpair.1, hpair.2, hws]
  rw [if_neg (by simp)]
  rw [if_neg hkne]
  rw [List.headD_cons]
  rw [if_pos rfl]
  rw [List.tail_cons]
  have hdrop : (' ' :: '"' :: (value.data ++ ['"'])).dropWhile isWsChar =
      '"' :: (value.data ++ ['"']) := by
    rw [List.dropWhile_cons]
    simp only [show isWsChar ' ' = true from by decide, if_true]
    rw [List.dropWhile_cons]
    simp only [show isWsChar '"' = false from by decide, Bool.false_eq_true, if_false]
  rw [hdrop]
  simp only [decodeScalar, data_mk]
  rw [if_neg (by simp)]
  rw [List.headD_cons, if_pos rfl, List.tail_cons]
  rw [decodeDQ_clean value.data hnq hnb]
  simp only [Except.map]

/-- Claim C2 (amended): for a header line of `key: value` shape whose value
is non-empty, unquoted, not array- or object-like, and contains a colon or
a hash, the repair pass re-quotes the whole value; provided the original
value also contains no backslash characters (the amendment forced by the
counterexample below: a backslash inside the re-quoted value is consumed
as an escape by the decoder) and no pre-existing double quotes, the
repaired line decodes successfully and the decoded value equals the
original value. -/
theorem c2_repair_roundtrip (line key value : String)
    (hkv : parseKeyVal line = some (key, value))
    (hcond : ((value != "") && !(jsStartsWith value "\"") && !(jsStartsWith value "'") &&
      !(jsStartsWith value "[") && !(jsStartsWith value "\x7b") &&
      (hasSubstr value ":" || hasSubstr value "#")) = true)
    (hnq : '"' ∉ value.data) (hnb : '\\' ∉ value.data)
    (hkey : ∀ c ∈ key.data, isWordChar c = true) :
    fixLine line = key ++ ": \"" ++ value ++ "\"" ∧
    decodeLine (fixLine line) = Except.ok (key, value) := by
  have hfix : fixLine line = key ++ ": \"" ++ value ++ "\"" := by
    simp only [fixLine, hkv]
    rw [hcond]
    simp [escapeQuotes_noop value hnq]
  refine ⟨hfix, ?_⟩
  rw [hfix]
  obtain ⟨rest, hkd, hwne, hr2, hvd⟩ := parseKeyVal_inv hkv
  have hws_nil : line.data.takeWhile isWsChar = [] := by
    cases hcase : line.data.takeWhile isWsChar with
    | nil => rfl
    | cons c cs =>
      have hcws : isWsChar c = true :=
        List.mem_takeWhile_imp (by rw [hcase]; exact List.mem_cons_self _ _)
      have hcmem : c ∈ key.data := by
        rw [hkd, hcase]
        exact List.mem_append_left _ (List.mem_cons_self _ _)
      have h2 := wsChar_not_wordChar hcws
      rw [hkey c hcmem] at h2
      exact absurd h2 (by decide)
  rw [hws_nil, List.nil_append] at hkd
  have := decodeLine_quoted key.data value (by rw [hkd]; exact hwne)
    hkey hnq hnb
  rw [str_mk_data] at this
  exact this

/-- Witness for C2: a concrete value with an embedded colon survives the
repair round-trip. -/
theorem c2_repair_roundtrip_witness :
    parseKeyVal "description: deploy: prod" = some ("description", "deploy: prod") ∧
    fixLine "description: deploy: prod" = "description: \"deploy: prod\"" ∧
    decodeLine (fixLine "description: deploy: prod") =
      Except.ok ("description", "deploy: prod") := by
  have h := c2_repair_roundtrip "description: deploy: prod" "description" "deploy: prod"
    (by rfl) (by rfl) (by decide) (by decide) (by decide)
  refine ⟨by rfl, ?_, ?_⟩
  · rw [h.1]
    decide
  · rw [h.2]

/-- Counterexample to claim C2 as stated: the value of `key: a\b:`
satisfies every stated condition (non-empty, not quoted, not array- or
object-like, contains a colon, no pre-existing double quotes), yet the
repaired line does not decode back to the original value: the backslash is
consumed as an escape by the decoder, yielding the string with a backspace
character in place of the two-character backslash-b sequence. -/
theorem c2_repair_roundtrip_cex :
    parseKeyVal "key: a\\b:" = some ("key", "a\\b:") ∧
    (("a\\b:" != "") && !(jsStartsWith "a\\b:" "\"") && !(jsStartsWith "a\\b:" "'") &&
      !(jsStartsWith "a\\b:" "[") && !(jsStartsWith "a\\b:" "\x7b") &&
      (hasSubstr "a\\b:" ":" || hasSubstr "a\\b:" "#")) = true ∧
    '"' ∉ ("a\\b:" : String).data ∧
    decodeLine (fixLine "key: a\\b:") = Except.ok ("key", "a\x08:") ∧
    decodeLine (fixLine "key: a\\b:") ≠ Except.ok ("key", "a\\b:") := by
  refine ⟨by rfl, by rfl, by decide, by rfl, by decide⟩

/-! ## Slash preservation and the resolved-name alphabet -/

theorem listReplaceFirst_mem {pat s : List Char} {x : Char}
    (hx : x ∈ s) (hpat : x ∉ pat) : x ∈ listReplaceFirst pat [] s := by
  induction s with
  | nil => simp at hx
  | cons c cs ih =>
    simp only [listReplaceFirst]
    by_cases hp : pat.isPrefixOf (c :: cs) = true
    · rw [if_pos hp, List.nil_append]
      have hpre : pat <+: c :: cs := List.isPrefixOf_iff_prefix.1 hp
      obtain ⟨t, ht⟩ := hpre
      rw [← ht, List.drop_left]
      rw [← ht] at hx
      rcases List.mem_append.1 hx with hm | hm
      · exact absurd hm hpat
      · exact hm
    · rw [if_neg hp]
      rcases List.mem_cons.1 hx with hm | hm
      · subst hm
        exact List.mem_cons_self _ _
      · exact List.mem_cons_of_mem _ (ih hm)

theorem commandNameOf_slash {c : CommandFile} (h : '/' ∈ c.relativePath.data) :
    '/' ∈ (commandNameOf c).data := by
  unfold commandNameOf replaceFirstStr
  rw [data_mk]
  exact listReplaceFirst_mem h (by decide)

theorem digitChar_ne_slash (d : Nat) : digitChar d ≠ '/' := by
  unfold digitChar
  cases hg : digitChars.get? d with
  | none => decide
  | some ch =>
    have hmem : ch ∈ digitChars := List.get?_mem hg
    fin_cases hmem <;> decide

theorem natDigitsAux_chars :
    ∀ (fuel m : Nat) (c : Char), c ∈ natDigitsAux fuel m → ∃ d, c = digitChar d := by
  intro fuel
  induction fuel with
  | zero =>
    intro m c h
    simp [natDigitsAux] at h
  | succ f ih =>
    intro m c h
    cases m with
    | zero => simp [natDigitsAux] at h
    | succ m' =>
      simp only [natDigitsAux] at h
      rcases List.mem_cons.1 h with hm | hm
      · exact ⟨_, hm⟩
      · exact ih _ c hm

theorem natToStr_no_slash (n : Nat) : '/' ∉ (natToStr n).data := by
  unfold natToStr
  by_cases h : n = 0
  · rw [if_pos h]
    decide
  · rw [if_neg h, data_mk]
    intro hmem
    rw [List.mem_reverse] at hmem
    obtain ⟨d, hd⟩ := natDigitsAux_chars n n '/' hmem
    exact digitChar_ne_slash d hd.symm

theorem pickFreeAux_shape (used : List String) (base : String) :
    ∀ (fuel k : Nat), ∃ j, k ≤ j ∧ pickFreeAux used base fuel k = base ++ "-" ++ natToStr j := by
  intro fuel
  induction fuel with
  | zero =>
    intro k
    exact ⟨k, le_refl k, rfl⟩
  | succ f ih =>
    intro k
    simp only [pickFreeAux]
    by_cases h : (base ++ "-" ++ natToStr k) ∈ used
    · rw [if_pos h]
      obtain ⟨j, hj, he⟩ := ih (k + 1)
      exact ⟨j, by omega, he⟩
    · rw [if_neg h]
      exact ⟨k, le_refl k, rfl⟩

theorem pickFree_no_slash (used : List String) (base : String)
    (hb : '/' ∉ base.data) : '/' ∉ (pickFree used base).data := by
  unfold pickFree
  by_cases h : base ∈ used
  · rw [if_pos h]
    obtain ⟨j, _, he⟩ := pickFreeAux_shape used base (used.length + 1) 2
    rw [he, str_data_append, str_data_append]
    intro hmem
    rcases List.mem_append.1 hmem with hm | hm
    · rcases List.mem_append.1 hm with hm2 | hm2
      · exact hb hm2
      · exact absurd hm2 (by decide)
    · exact natToStr_no_slash j hm
  · rw [if_neg h]
    exact hb

theorem resolveLoop_values_no_slash :
    ∀ (agents : List AgentFile) (acc : List (String × String)),
    (∀ v ∈ acc.map Prod.snd, '/' ∉ v.data) →
    ∀ v ∈ (resolveLoop agents acc).map Prod.snd, '/' ∉ v.data := by
  intro agents
  induction agents with
  | nil =>
    intro acc h v hv
    exact h v hv
  | cons a rest ih =>
    intro acc h v hv
    simp only [resolveLoop] at hv
    by_cases hs : (assocFind a.frontmatter.name acc).isSome = true
    · rw [if_pos hs] at hv
      exact ih acc h v hv
    · rw [if_neg hs] at hv
      refine ih _ ?_ v hv
      intro u hu
      rw [List.map_append] at hu
      rcases List.mem_append.1 hu with hu | hu
      · exact h u hu
      · have hu2 : u = pickFree (acc.map Prod.snd)
            (generateCommandName a.frontmatter.name) := by
          simpa using hu
        rw [hu2]
        exact pickFree_no_slash _ _ (generateCommandName_no_slash _)

theorem resolved_no_slash {agents : List AgentFile} {n v : String}
    (h : assocFind n (resolveNamingConflicts agents) = some v) : '/' ∉ v.data := by
  have hmem := assocFind_mem h
  have hv : v ∈ (resolveNamingConflicts agents).map Prod.snd :=
    List.mem_map.2 ⟨(n, v), hmem, rfl⟩
  exact resolveLoop_values_no_slash agents [] (by simp) v hv

theorem values_no_slash {agents : List AgentFile} {v : String}
    (h : v ∈ (resolveNamingConflicts agents).map Prod.snd) : '/' ∉ v.data :=
  resolveLoop_values_no_slash agents [] (by simp) v h

/-! ## Claims C1 and C10: the sync classification -/

theorem expectedMatches_iff (o : Option String) (d : CommandFile) :
    expectedMatches o d = true ↔ o = some (commandNameOf d) := by
  cases o with
  | none => simp [expectedMatches]
  | some e =>
    simp only [expectedMatches, decide_eq_true_eq, Option.some.injEq]
    exact ⟨fun h => h.symm, fun h => h.symm⟩

/-- Claim C1 (amended): a hand-authored (non-generated) command file is
never paired into `toUpdate`, its path never enters `toDelete`, and
`toDelete` (when the clean flag is set) consists exactly of the paths of
existing generated command files whose derived name is not among the
resolved names; however — the amendment — the execution phase runs the
generator with force set on every `toCreate`/`toUpdate` agent, so a
hand-authored file that happens to occupy an agent's target path is
overwritten (see the counterexample), hence hand-authored files are
guaranteed untouched only when they sit outside all target paths. -/
theorem c1_hand_authored_amended (fs : FS) (agents : List AgentFile)
    (existing : List CommandFile) (clean : Bool) (c : CommandFile)
    (hgen : isGeneratedFile fs c.path = false) :
    (∀ a : AgentFile, (a, c) ∉ (syncClassify fs agents existing clean).toUpdate) ∧
    c.path ∉ (syncClassify fs agents existing clean).toDelete ∧
    (∀ p : String, p ∈ (syncClassify fs agents existing clean).toDelete ↔
      (clean = true ∧ ∃ d ∈ existing, isGeneratedFile fs d.path = true ∧
        commandNameOf d ∉ (resolveNamingConflicts agents).map Prod.snd ∧ d.path = p)) := by
  have hdel : ∀ p : String, p ∈ (syncClassify fs agents existing clean).toDelete ↔
      (clean = true ∧ ∃ d ∈ existing, isGeneratedFile fs d.path = true ∧
        commandNameOf d ∉ (resolveNamingConflicts agents).map Prod.snd ∧ d.path = p) := by
    intro p
    simp only [syncClassify]
    cases clean with
    | false => simp
    | true =>
      simp only [if_true, List.mem_map, List.mem_filter, decide_eq_true_eq]
      constructor
      · rintro ⟨d, ⟨⟨hd, hgend⟩, hnotin⟩, hp⟩
        exact ⟨trivial, d, hd, hgend, hnotin, hp⟩
      · rintro ⟨-, d, hd, hgend, hnotin, hp⟩
        exact ⟨d, ⟨⟨hd, hgend⟩, hnotin⟩, hp⟩
  have hupd : ∀ a : AgentFile, (a, c) ∉ (syncClassify fs agents existing clean).toUpdate := by
    intro a hmem
    simp only [syncClassify, List.mem_filterMap] at hmem
    obtain ⟨a', ha', hmap⟩ := hmem
    rw [Option.map_eq_some'] at hmap
    obtain ⟨c', hfind, heq⟩ := hmap
    rw [Prod.mk.injEq] at heq
    obtain ⟨-, hc'⟩ := heq
    subst hc'
    have hmem2 := List.mem_of_find?_eq_some hfind
    rw [List.mem_filter] at hmem2
    rw [hmem2.2] at hgen
    simp at hgen
  refine ⟨hupd, ?_, hdel⟩
  intro hmem
  obtain ⟨-, d, -, hgend, -, hp⟩ := (hdel c.path).1 hmem
  rw [hp] at hgend
  rw [hgend] at hgen
  simp at hgen

/-- Witness for C1: in a commands directory holding one generated and one
hand-authored file, with no agents left and the clean flag set, the
hand-authored file is not marked for deletion (and is in no update pair),
while the orphaned generated file is. -/
theorem c1_hand_authored_amended_witness :
    isGeneratedFile
      [("cmd/gen.md", some "x\n<!-- ccsa:generated -->"), ("cmd/hand.md", some "notes")]
      "cmd/hand.md" = false ∧
    "cmd/hand.md" ∉ (syncClassify
      [("cmd/gen.md", some "x\n<!-- ccsa:generated -->"), ("cmd/hand.md", some "notes")]
      []
      [⟨"cmd/gen.md", "gen.md", "x", Scope.project⟩,
       ⟨"cmd/hand.md", "hand.md", "notes", Scope.project⟩] true).toDelete ∧
    "cmd/gen.md" ∈ (syncClassify
      [("cmd/gen.md", some "x\n<!-- ccsa:generated -->"), ("cmd/hand.md", some "notes")]
      []
      [⟨"cmd/gen.md", "gen.md", "x", Scope.project⟩,
       ⟨"cmd/hand.md", "hand.md", "notes", Scope.project⟩] true).toDelete :=
  ⟨by rfl,
    (c1_hand_authored_amended
      [("cmd/gen.md", some "x\n<!-- ccsa:generated -->"), ("cmd/hand.md", some "notes")]
      []
      [⟨"cmd/gen.md", "gen.md", "x", Scope.project⟩,
       ⟨"cmd/hand.md", "hand.md", "notes", Scope.project⟩] true
      ⟨"cmd/hand.md", "hand.md", "notes", Scope.project⟩ (by rfl)).2.1,
    by decide⟩

/-- Counterexample to claim C1 as stated: a hand-authored (non-generated)
command file that happens to occupy an agent's target path is written by
the sync execution phase — the agent is classified `toCreate` (no
generated file matches it) and creation runs the generator with force
set, overwriting the hand-authored content. -/
theorem c1_hand_authored_cex :
    isGeneratedFile [(".claude/commands/foo.md", some "hand written")]
      ".claude/commands/foo.md" = false ∧
    (syncClassify [(".claude/commands/foo.md", some "hand written")]
        [⟨"a/foo.md", "foo.md", ⟨"foo", "d", none, none⟩, "body", Scope.project⟩]
        [⟨".claude/commands/foo.md", "foo.md", "hand written", Scope.project⟩]
        true).toCreate =
      [⟨"a/foo.md", "foo.md", ⟨"foo", "d", none, none⟩, "body", Scope.project⟩] ∧
    fsRead (syncApply [(".claude/commands/foo.md", some "hand written")] Scope.project
        (syncClassify [(".claude/commands/foo.md", some "hand written")]
          [⟨"a/foo.md", "foo.md", ⟨"foo", "d", none, none⟩, "body", Scope.project⟩]
          [⟨".claude/commands/foo.md", "foo.md", "hand written", Scope.project⟩]
          true)).1 ".claude/commands/foo.md" ≠ some "hand written" := by
  refine ⟨by rfl, by rfl, by decide⟩

/-- Claim C10: an existing generated command file is matched to an agent
iff its `relativePath` with the first occurrence of `.md` removed equals
the agent's resolved name (an agent is `toCreate` iff no generated file
matches it this way, and every `toUpdate` pair satisfies the equation);
consequently a generated command in a nested subdirectory (whose
`relativePath` contains a path separator) matches no agent and, when the
clean flag is set, is always classified into `toDelete`. -/
theorem c10_sync_match_by_stripped_name (fs : FS) (agents : List AgentFile)
    (existing : List CommandFile) (clean : Bool) :
    (∀ a ∈ agents,
      (a ∈ (syncClassify fs agents existing clean).toCreate ↔
        ∀ d ∈ existing, isGeneratedFile fs d.path = true →
          assocFind a.frontmatter.name (resolveNamingConflicts agents) ≠
            some (commandNameOf d))) ∧
    (∀ (a : AgentFile) (d : CommandFile),
      (a, d) ∈ (syncClassify fs agents existing clean).toUpdate →
      assocFind a.frontmatter.name (resolveNamingConflicts agents) =
        some (commandNameOf d)) ∧
    (∀ d ∈ existing, isGeneratedFile fs d.path = true → '/' ∈ d.relativePath.data →
      (∀ a : AgentFile, (a, d) ∉ (syncClassify fs agents existing clean).toUpdate) ∧
      (clean = true → d.path ∈ (syncClassify fs agents existing clean).toDelete)) := by
  have hupd : ∀ (a : AgentFile) (d : CommandFile),
      (a, d) ∈ (syncClassify fs agents existing clean).toUpdate →
      assocFind a.frontmatter.name (resolveNamingConflicts agents) =
        some (commandNameOf d) := by
    intro a d hmem
    simp only [syncClassify, List.mem_filterMap] at hmem
    obtain ⟨a', ha', hmap⟩ := hmem
    rw [Option.map_eq_some'] at hmap
    obtain ⟨c', hfind, heq⟩ := hmap
    rw [Prod.mk.injEq] at heq
    obtain ⟨ha, hc⟩ := heq
    rw [← ha, ← hc]
    exact (expectedMatches_iff _ c').1 (List.find?_some hfind)
  refine ⟨?_, hupd, ?_⟩
  · intro a ha
    simp only [syncClassify, List.mem_filter, Option.isNone_iff_eq_none,
      List.find?_eq_none, List.mem_filter, decide_eq_true_eq]
    constructor
    · rintro ⟨-, hnone⟩ d hd hgend heq
      exact hnone d ⟨hd, hgend⟩ ((expectedMatches_iff _ d).2 heq)
    · intro hall
      refine ⟨ha, ?_⟩
      rintro d ⟨hd, hgend⟩ hp
      exact hall d hd hgend ((expectedMatches_iff _ d).1 hp)
  · intro d hd hgend hslash
    have hnomatch : ∀ a : AgentFile,
        assocFind a.frontmatter.name (resolveNamingConflicts agents) ≠
          some (commandNameOf d) := by
      intro a heq
      exact resolved_no_slash heq (commandNameOf_slash hslash)
    refine ⟨fun a hmem => hnomatch a (hupd a d hmem), ?_⟩
    intro hclean
    subst hclean
    simp only [syncClassify, if_true]
    rw [List.mem_map]
    refine ⟨d, ?_, rfl⟩
    rw [List.mem_filter, List.mem_filter]
    refine ⟨⟨hd, hgend⟩, ?_⟩
    rw [decide_eq_true_eq]
    intro hv
    exact values_no_slash hv (commandNameOf_slash hslash)

/-- Witness for C10: a generated command file in a nested subdirectory is
classified for deletion and paired with no agent. -/
theorem c10_sync_match_by_stripped_name_witness :
    isGeneratedFile [(".claude/commands/sub/old.md", some "y\n<!-- ccsa:generated -->")]
      ".claude/commands/sub/old.md" = true ∧
    '/' ∈ ("sub/old.md" : String).data ∧
    ".claude/commands/sub/old.md" ∈ (syncClassify
      [(".claude/commands/sub/old.md", some "y\n<!-- ccsa:generated -->")]
      [⟨"a/foo.md", "foo.md", ⟨"foo", "d", none, none⟩, "body", Scope.project⟩]
      [⟨".claude/commands/sub/old.md", "sub/old.md", "y", Scope.project⟩]
      true).toDelete :=
  ⟨by rfl, by decide,
    ((c10_sync_match_by_stripped_name
        [(".claude/commands/sub/old.md", some "y\n<!-- ccsa:generated -->")]
        [⟨"a/foo.md", "foo.md", ⟨"foo", "d", none, none⟩, "body", Scope.project⟩]
        [⟨".claude/commands/sub/old.md", "sub/old.md", "y", Scope.project⟩]
        true).2.2
      ⟨".claude/commands/sub/old.md", "sub/old.md", "y", Scope.project⟩
      (by decide) (by rfl) (by decide)).2 rfl⟩

/-! ## Claim C3: injectivity of the numeric suffix and conflict resolution -/

theorem natDigitsAux_eq : ∀ (fuel n : Nat), n ≤ fuel →
    natDigitsAux fuel n = (Nat.digits 10 n).map digitChar := by
  intro fuel
  induction fuel with
  | zero =>
    intro n hn
    have : n = 0 := Nat.le_zero.1 hn
    subst this
    simp [natDigitsAux]
  | succ f ih =>
    intro n hn
    cases n with
    | zero => simp [natDigitsAux]
    | succ m =>
      have hdiv : (m + 1) / 10 ≤ f := by
        have h1 : (m + 1) / 10 < m + 1 := Nat.div_lt_self (Nat.succ_pos m) (by norm_num)
        omega
      rw [natDigitsAux, ih _ hdiv]
      rw [Nat.digits_def' (by norm_num : 1 < 10) (Nat.succ_pos m)]
      simp

theorem digitChar_inj {a b : Nat} (ha : a < 10) (hb : b < 10)
    (h : digitChar a = digitChar b) : a = b := by
  interval_cases a <;> interval_cases b <;> first | rfl | exact absurd h (by decide)

theorem map_digitChar_inj : ∀ (l1 l2 : List Nat), (∀ d ∈ l1, d < 10) → (∀ d ∈ l2, d < 10) →
    l1.map digitChar = l2.map digitChar → l1 = l2 := by
  intro l1
  induction l1 with
  | nil =>
    intro l2 _ _ h
    cases l2 with
    | nil => rfl
    | cons b t => simp at h
  | cons a t ih =>
    intro l2 h1 h2 h
    cases l2 with
    | nil => simp at h
    | cons b t2 =>
      simp only [List.map_cons, List.cons.injEq] at h
      have ha : a = b := digitChar_inj (h1 a (List.mem_cons_self _ _))
        (h2 b (List.mem_cons_self _ _)) h.1
      rw [ha, ih t2 (fun d hd => h1 d (List.mem_cons_of_mem _ hd))
        (fun d hd => h2 d (List.mem_cons_of_mem _ hd)) h.2]

theorem natToStr_inj {m n : Nat} (hm : 0 < m) (hn : 0 < n)
    (h : natToStr m = natToStr n) : m = n := by
  unfold natToStr at h
  rw [if_neg (Nat.pos_iff_ne_zero.1 hm), if_neg (Nat.pos_iff_ne_zero.1 hn)] at h
  have hd := congrArg String.data h
  rw [data_mk, data_mk] at hd
  rw [natDigitsAux_eq m m (le_refl m), natDigitsAux_eq n n (le_refl n)] at hd
  have hrev := List.reverse_injective hd
  have hdigits := map_digitChar_inj _ _
    (fun d hd2 => Nat.digits_lt_base (by norm_num) hd2)
    (fun d hd2 => Nat.digits_lt_base (by norm_num) hd2) hrev
  exact Nat.digits.injective 10 hdigits

theorem cand_inj (base : String) :
    Function.Injective (fun i : Nat => base ++ "-" ++ natToStr (i + 2)) := by
  intro i j h
  simp only at h
  have h2 : natToStr (i + 2) = natToStr (j + 2) :=
    str_append_left_cancel (s := base ++ "-") h
  have := natToStr_inj (by omega) (by omega) h2
  omega

theorem pickFree_free_exists (used : List String) (base : String) :
    ∃ j, 2 ≤ j ∧ j < 2 + (used.length + 1) ∧ (base ++ "-" ++ natToStr j) ∉ used := by
  by_contra hcon
  push_neg at hcon
  have hsub : ((List.range (used.length + 1)).map
      (fun i => base ++ "-" ++ natToStr (i + 2))) ⊆ used := by
    intro s hs
    rw [List.mem_map] at hs
    obtain ⟨i, hi, rfl⟩ := hs
    rw [List.mem_range] at hi
    exact hcon (i + 2) (by omega) (by omega)
  have hndc : ((List.range (used.length + 1)).map
      (fun i => base ++ "-" ++ natToStr (i + 2))).Nodup :=
    (List.nodup_range _).map (cand_inj base)
  have hlen := (hndc.subperm hsub).length_le
  rw [List.length_map, List.length_range] at hlen
  omega

theorem pickFreeAux_not_mem (used : List String) (base : String) :
    ∀ (fuel k : Nat), (∃ j, k ≤ j ∧ j < k + fuel ∧ (base ++ "-" ++ natToStr j) ∉ used) →
    pickFreeAux used base fuel k ∉ used := by
  intro fuel
  induction fuel with
  | zero =>
    rintro k ⟨j, h1, h2, -⟩
    omega
  | succ f ih =>
    rintro k ⟨j, h1, h2, h3⟩
    simp only [pickFreeAux]
    by_cases hc : (base ++ "-" ++ natToStr k) ∈ used
    · rw [if_pos hc]
      apply ih (k + 1)
      refine ⟨j, ?_, by omega, h3⟩
      rcases Nat.eq_or_lt_of_le h1 with heq | hlt
      · subst heq
        exact absurd hc h3
      · omega
    · rw [if_neg hc]
      exact hc

theorem pickFree_not_mem (used : List String) (base : String) :
    pickFree used base ∉ used := by
  unfold pickFree
  by_cases h : base ∈ used
  · rw [if_pos h]
    apply pickFreeAux_not_mem
    obtain ⟨j, h1, h2, h3⟩ := pickFree_free_exists used base
    exact ⟨j, h1, by omega, h3⟩
  · rw [if_neg h]
    exact h

theorem pickFree_not_used {used : List String} {base : String} (h : base ∉ used) :
    pickFree used base = base := by
  unfold pickFree
  rw [if_neg h]

theorem pickFree_mem_shape (used : List String) (base : String) (h : base ∈ used) :
    ∃ j, 2 ≤ j ∧ pickFree used base = base ++ "-" ++ natToStr j := by
  unfold pickFree
  rw [if_pos h]
  obtain ⟨j, hj, he⟩ := pickFreeAux_shape used base (used.length + 1) 2
  exact ⟨j, hj, he⟩

theorem resolveLoop_extends : ∀ (agents : List AgentFile) (acc : List (String × String)),
    ∃ ext, resolveLoop agents acc = acc ++ ext := by
  intro agents
  induction agents with
  | nil =>
    intro acc
    exact ⟨[], by simp [resolveLoop]⟩
  | cons a rest ih =>
    intro acc
    simp only [resolveLoop]
    by_cases hs : (assocFind a.frontmatter.name acc).isSome = true
    · rw [if_pos hs]
      exact ih acc
    · rw [if_neg hs]
      obtain ⟨ext, he⟩ := ih (acc ++
        [(a.frontmatter.name, pickFree (acc.map Prod.snd) (generateCommandName a.frontmatter.name))])
      exact ⟨(a.frontmatter.name,
        pickFree (acc.map Prod.snd) (generateCommandName a.frontmatter.name)) :: ext,
        by rw [he, List.append_assoc, List.singleton_append]⟩

theorem resolveLoop_keys_iff : ∀ (agents : List AgentFile) (acc : List (String × String))
    (k : String), k ∈ (resolveLoop agents acc).map Prod.fst ↔
      k ∈ acc.map Prod.fst ∨ k ∈ agents.map (fun a => a.frontmatter.name) := by
  intro agents
  induction agents with
  | nil =>
    intro acc k
    simp [resolveLoop]
  | cons a rest ih =>
    intro acc k
    simp only [resolveLoop, List.map_cons, List.mem_cons]
    by_cases hs : (assocFind a.frontmatter.name acc).isSome = true
    · rw [if_pos hs, ih]
      have hk : a.frontmatter.name ∈ acc.map Prod.fst := (assocFind_isSome_iff _ _).1 hs
      constructor
      · rintro (h | h)
        · exact Or.inl h
        · exact Or.inr (Or.inr h)
      · rintro (h | h | h)
        · exact Or.inl h
        · exact Or.inl (h ▸ hk)
        · exact Or.inr h
    · rw [if_neg hs, ih]
      simp only [List.map_append, List.mem_append, List.map_cons, List.map_nil,
        List.mem_singleton]
      constructor
      · rintro ((h | h) | h)
        · exact Or.inl h
        · exact Or.inr (Or.inl h)
        · exact Or.inr (Or.inr h)
      · rintro (h | h | h)
        · exact Or.inl (Or.inl h)
        · exact Or.inl (Or.inr h)
        · exact Or.inr h

theorem resolveLoop_nodup : ∀ (agents : List AgentFile) (acc : List (String × String)),
    (acc.map Prod.fst).Nodup → (acc.map Prod.snd).Nodup →
    ((resolveLoop agents acc).map Prod.fst).Nodup ∧
      ((resolveLoop agents acc).map Prod.snd).Nodup := by
  intro agents
  induction agents with
  | nil =>
    intro acc h1 h2
    simp only [resolveLoop]
    exact ⟨h1, h2⟩
  | cons a rest ih =>
    intro acc h1 h2
    simp only [resolveLoop]
    by_cases hs : (assocFind a.frontmatter.name acc).isSome = true
    · rw [if_pos hs]
      exact ih acc h1 h2
    · rw [if_neg hs]
      apply ih
      · simp only [List.map_append, List.map_cons, List.map_nil]
        apply nodup_append_singleton h1
        intro hmem
        exact hs ((assocFind_isSome_iff _ _).2 hmem)
      · simp only [List.map_append, List.map_cons, List.map_nil]
        apply nodup_append_singleton h2
        exact pickFree_not_mem _ _

theorem assocFind_of_mem_nodup {α β : Type} [DecidableEq α] {k : α} {v : β}
    {l : List (α × β)} (hnd : (l.map Prod.fst).Nodup) (hmem : (k, v) ∈ l) :
    assocFind k l = some v := by
  induction l with
  | nil => simp at hmem
  | cons e rest ih =>
    obtain ⟨k', v'⟩ := e
    rcases List.mem_cons.1 hmem with he | he
    · rw [Prod.mk.injEq] at he
      rw [assocFind, if_pos he.1, he.2]
    · have hk : ¬ k = k' := by
        intro he2
        subst he2
        have hkeys : k ∈ rest.map Prod.fst := List.mem_map.2 ⟨(k, v), he, rfl⟩
        simp only [List.map_cons] at hnd
        exact (List.nodup_cons.1 hnd).1 hkeys
      rw [assocFind, if_neg hk]
      simp only [List.map_cons] at hnd
      exact ih (List.nodup_cons.1 hnd).2 he

theorem resolveLoop_append : ∀ (l1 l2 : List AgentFile) (acc : List (String × String)),
    resolveLoop (l1 ++ l2) acc = resolveLoop l2 (resolveLoop l1 acc) := by
  intro l1
  induction l1 with
  | nil =>
    intro l2 acc
    rfl
  | cons a rest ih =>
    intro l2 acc
    show resolveLoop (a :: (rest ++ l2)) acc = resolveLoop l2 (resolveLoop (a :: rest) acc)
    simp only [resolveLoop]
    by_cases hs : (assocFind a.frontmatter.name acc).isSome = true
    · rw [if_pos hs, if_pos hs]
      exact ih l2 acc
    · rw [if_neg hs, if_neg hs]
      exact ih l2 _

/-- Claim C3 (amended): `resolveNamingConflicts` returns a map with
exactly one entry per distinct agent logical name (its keys are exactly
the input names, without duplicates) and no two agents share a final
identifier (its values are pairwise distinct).  When two distinct logical
names derive to the same candidate identifier, the earlier agent receives
the unsuffixed candidate and the later one a numerically suffixed form —
provided (the amendment) the candidate was not already claimed by the
resolution of an even earlier agent; without that proviso the earlier
agent of the pair can itself be forced onto a suffixed name (see the
counterexample). -/
theorem c3_resolveConflicts_amended (agents : List AgentFile) :
    ((resolveNamingConflicts agents).map Prod.fst).Nodup ∧
    ((resolveNamingConflicts agents).map Prod.snd).Nodup ∧
    (∀ n : String, n ∈ (resolveNamingConflicts agents).map Prod.fst ↔
      n ∈ agents.map (fun a => a.frontmatter.name)) ∧
    (∀ (l1 l2 l3 : List AgentFile) (ax ay : AgentFile),
      agents = l1 ++ ax :: (l2 ++ ay :: l3) →
      ax.frontmatter.name ≠ ay.frontmatter.name →
      generateCommandName ay.frontmatter.name = generateCommandName ax.frontmatter.name →
      ax.frontmatter.name ∉ l1.map (fun a => a.frontmatter.name) →
      ay.frontmatter.name ∉ (l1 ++ ax :: l2).map (fun a => a.frontmatter.name) →
      generateCommandName ax.frontmatter.name ∉
        (resolveNamingConflicts l1).map Prod.snd →
      assocFind ax.frontmatter.name (resolveNamingConflicts agents) =
        some (generateCommandName ax.frontmatter.name) ∧
      ∃ k, 2 ≤ k ∧ assocFind ay.frontmatter.name (resolveNamingConflicts agents) =
        some (generateCommandName ax.frontmatter.name ++ "-" ++ natToStr k)) := by
  refine ⟨(resolveLoop_nodup agents [] (by simp) (by simp)).1,
    (resolveLoop_nodup agents [] (by simp) (by simp)).2, ?_, ?_⟩
  · intro n
    have h := resolveLoop_keys_iff agents [] n
    simpa [resolveNamingConflicts] using h
  · intro l1 l2 l3 ax ay hagents hxy hgcn hx1 hy1 hB
    rw [resolveNamingConflicts] at hB
    rw [List.map_append, List.map_cons] at hy1
    simp only [List.mem_append, List.mem_cons, not_or] at hy1
    obtain ⟨hyl1, hyx, hyl2⟩ := hy1
    -- the step that processes ax
    have hM1x : assocFind ax.frontmatter.name (resolveLoop l1 []) = none := by
      apply assocFind_eq_none
      intro hmem
      rcases (resolveLoop_keys_iff l1 [] _).1 hmem with h | h
      · simp at h
      · exact hx1 h
    have hstep : resolveNamingConflicts agents =
        resolveLoop (l2 ++ ay :: l3) (resolveLoop l1 [] ++
          [(ax.frontmatter.name, generateCommandName ax.frontmatter.name)]) := by
      rw [resolveNamingConflicts, hagents, resolveLoop_append]
      show resolveLoop (ax :: (l2 ++ ay :: l3)) (resolveLoop l1 []) = _
      simp only [resolveLoop]
      rw [hM1x]
      simp only [Option.isSome_none, Bool.false_eq_true, if_false]
      rw [pickFree_not_used hB]
    -- the step that processes ay
    have hM3y : assocFind ay.frontmatter.name (resolveLoop l2 (resolveLoop l1 [] ++
        [(ax.frontmatter.name, generateCommandName ax.frontmatter.name)])) = none := by
      apply assocFind_eq_none
      intro hmem
      rcases (resolveLoop_keys_iff l2 _ _).1 hmem with h | h
      · rw [List.map_append] at h
        rcases List.mem_append.1 h with h2 | h2
        · rcases (resolveLoop_keys_iff l1 [] _).1 h2 with h3 | h3
          · simp at h3
          · exact hyl1 h3
        · simp only [List.map_cons, List.map_nil, List.mem_singleton] at h2
          exact hyx h2
      · exact hyl2 h
    have hstep2 : resolveNamingConflicts agents =
        resolveLoop l3 ((resolveLoop l2 (resolveLoop l1 [] ++
            [(ax.frontmatter.name, generateCommandName ax.frontmatter.name)])) ++
          [(ay.frontmatter.name,
            pickFree ((resolveLoop l2 (resolveLoop l1 [] ++
              [(ax.frontmatter.name, generateCommandName ax.frontmatter.name)])).map Prod.snd)
              (generateCommandName ay.frontmatter.name))]) := by
      rw [hstep, resolveLoop_append]
      show resolveLoop (ay :: l3) _ = _
      simp only [resolveLoop]
      rw [hM3y]
      simp only [Option.isSome_none, Bool.false_eq_true, if_false]
    -- the unsuffixed entry for ax is in the final map
    have hxpair : (ax.frontmatter.name, generateCommandName ax.frontmatter.name) ∈
        resolveNamingConflicts agents := by
      rw [hstep2]
      obtain ⟨ext3, hext3⟩ := resolveLoop_extends l3 _
      rw [hext3]
      apply List.mem_append_left
      apply List.mem_append_left
      obtain ⟨ext2, hext2⟩ := resolveLoop_extends l2 (resolveLoop l1 [] ++
        [(ax.frontmatter.name, generateCommandName ax.frontmatter.name)])
      rw [hext2]
      apply List.mem_append_left
      exact List.mem_append_right _ (List.mem_singleton.2 rfl)
    -- the candidate of ay is already claimed
    have hBin : generateCommandName ay.frontmatter.name ∈
        (resolveLoop l2 (resolveLoop l1 [] ++
          [(ax.frontmatter.name, generateCommandName ax.frontmatter.name)])).map Prod.snd := by
      rw [hgcn]
      obtain ⟨ext2, hext2⟩ := resolveLoop_extends l2 (resolveLoop l1 [] ++
        [(ax.frontmatter.name, generateCommandName ax.frontmatter.name)])
      refine List.mem_map.2 ⟨(ax.frontmatter.name, generateCommandName ax.frontmatter.name),
        ?_, rfl⟩
      rw [hext2]
      apply List.mem_append_left
      exact List.mem_append_right _ (List.mem_singleton.2 rfl)
    obtain ⟨k, hk2, hkeq⟩ := pickFree_mem_shape _ _ hBin
    -- the suffixed entry for ay is in the final map
    have hypair : (ay.frontmatter.name,
        generateCommandName ax.frontmatter.name ++ "-" ++ natToStr k) ∈
        resolveNamingConflicts agents := by
      rw [hstep2]
      obtain ⟨ext3, hext3⟩ := resolveLoop_extends l3 _
      rw [hext3]
      apply List.mem_append_left
      apply List.mem_append_right
      rw [List.mem_singleton, hkeq, hgcn]
    have hnodup := (resolveLoop_nodup agents [] (by simp) (by simp)).1
    exact ⟨assocFind_of_mem_nodup hnodup hxpair, k, hk2,
      assocFind_of_mem_nodup hnodup hypair⟩

/-- Witness for C3: the spec's own scenario — agents named `Test Agent`
and `test-agent` (in that order) both derive to `test-agent`; the earlier
keeps the unsuffixed name and the later receives `test-agent-2`. -/
theorem c3_resolveConflicts_amended_witness :
    assocFind "Test Agent" (resolveNamingConflicts
      [⟨"p1", "r1", ⟨"Test Agent", "d1", none, none⟩, "c1", Scope.project⟩,
       ⟨"p2", "r2", ⟨"test-agent", "d2", none, none⟩, "c2", Scope.project⟩]) =
      some "test-agent" ∧
    assocFind "test-agent" (resolveNamingConflicts
      [⟨"p1", "r1", ⟨"Test Agent", "d1", none, none⟩, "c1", Scope.project⟩,
       ⟨"p2", "r2", ⟨"test-agent", "d2", none, none⟩, "c2", Scope.project⟩]) =
      some "test-agent-2" ∧
    ∃ k, 2 ≤ k ∧ assocFind "test-agent" (resolveNamingConflicts
      [⟨"p1", "r1", ⟨"Test Agent", "d1", none, none⟩, "c1", Scope.project⟩,
       ⟨"p2", "r2", ⟨"test-agent", "d2", none, none⟩, "c2", Scope.project⟩]) =
      some (generateCommandName "Test Agent" ++ "-" ++ natToStr k) := by
  have h := (c3_resolveConflicts_amended
    [⟨"p1", "r1", ⟨"Test Agent", "d1", none, none⟩, "c1", Scope.project⟩,
     ⟨"p2", "r2", ⟨"test-agent", "d2", none, none⟩, "c2", Scope.project⟩]).2.2.2
    [] [] []
    ⟨"p1", "r1", ⟨"Test Agent", "d1", none, none⟩, "c1", Scope.project⟩
    ⟨"p2", "r2", ⟨"test-agent", "d2", none, none⟩, "c2", Scope.project⟩
    rfl (by decide) (by decide) (by simp) (by decide) (by simp [resolveNamingConflicts, resolveLoop])
  exact ⟨h.1.trans (by decide), by decide, h.2⟩

/-- Counterexample to claim C3 as stated: with agents named `a`, `A`,
`a-2`, `a.2` (in that order), the names `a-2` and `a.2` are distinct and
both derive to the candidate `a-2`, and `a-2` comes earlier — yet `a-2`
does not receive the unsuffixed candidate, because that identifier was
already claimed by the suffixed resolution of `A`; `a-2` resolves to
`a-2-2`. -/
theorem c3_resolveConflicts_cex :
    ("a-2" : String) ≠ "a.2" ∧
    generateCommandName "a-2" = "a-2" ∧
    generateCommandName "a.2" = "a-2" ∧
    assocFind "a-2" (resolveNamingConflicts
      [⟨"p1", "r1", ⟨"a", "d", none, none⟩, "c", Scope.project⟩,
       ⟨"p2", "r2", ⟨"A", "d", none, none⟩, "c", Scope.project⟩,
       ⟨"p3", "r3", ⟨"a-2", "d", none, none⟩, "c", Scope.project⟩,
       ⟨"p4", "r4", ⟨"a.2", "d", none, none⟩, "c", Scope.project⟩]) = some "a-2-2" ∧
    assocFind "a-2" (resolveNamingConflicts
      [⟨"p1", "r1", ⟨"a", "d", none, none⟩, "c", Scope.project⟩,
       ⟨"p2", "r2", ⟨"A", "d", none, none⟩, "c", Scope.project⟩,
       ⟨"p3", "r3", ⟨"a-2", "d", none, none⟩, "c", Scope.project⟩,
       ⟨"p4", "r4", ⟨"a.2", "d", none, none⟩, "c", Scope.project⟩]) ≠
      some (generateCommandName "a-2") := by
  exact ⟨by decide, by decide, by decide, by decide, by decide⟩
